import Mathlib

/-!
Verification development for the student registration system in
`src/project2/script.js`.

The program is a browser-based CRUD roster over a single record type
(`StudentRecord` with four string fields), backed by one `localStorage`
slot.  Strings are embedded as `List Char`; the regular-expression tests of
`validateForm` are embedded as executable character-list matchers that
mirror the backtracking semantics of the anchored JS regexes; the DOM,
`localStorage` and `JSON` are platform primitives and are modelled at the
abstract value level (`JsValue`, `Slot`).  The event-driven controller is
embedded as a step function on an explicit state (`Sys`).
-/

namespace SRS

/-- The JS whitespace class used by both `String.prototype.trim` and the
regex class `\s`: ASCII whitespace plus the common Unicode space characters. -/
def isJsSpace (ch : Char) : Bool :=
  ch == ' ' || ch == '\t' || ch == '\n' || ch == '\r' ||
  ch == '\x0b' || ch == '\x0c' || ch == '\u00A0' || ch == '\u2028' ||
  ch == '\u2029' || ch == '\uFEFF'

/-- Model of `String.prototype.trim`: drop leading and trailing whitespace. -/
def trim (l : List Char) : List Char :=
  ((l.dropWhile isJsSpace).reverse.dropWhile isJsSpace).reverse

/-- An anchored `p+` regex test: the whole input is one or more characters
of the class `p`.  Used for `/^[A-Za-z ]+$/` and `/^[0-9]+$/`. -/
def plusMatch (p : Char → Bool) (l : List Char) : Bool :=
  !l.isEmpty && l.all p

/-- The character class `[A-Za-z ]` of the name regex. -/
def nameCharB (ch : Char) : Bool :=
  ch.isAlpha || ch == ' '

/-- The character class `[^\s@]` used by all groups of the email regex. -/
def emailAtomChar (ch : Char) : Bool :=
  !isJsSpace ch && ch != '@'

/-- Matcher for the regex fragment `[^\s@]*\.[^\s@]+$` entered after at
least one character of the second group has been consumed: either the next
character is the literal dot followed by the final group, or it is one more
`[^\s@]` character of the second group (the dot itself is in `[^\s@]`, so
both branches can apply — this is the regex engine's backtracking). -/
def domAfterOne : List Char → Bool
  | [] => false
  | c :: rest =>
    (c == '.' && plusMatch emailAtomChar rest) || (emailAtomChar c && domAfterOne rest)

/-- Matcher for the regex fragment `[^\s@]+\.[^\s@]+$` (the part of the
email regex after the `@`). -/
def domainMatch : List Char → Bool
  | [] => false
  | c :: rest => emailAtomChar c && domAfterOne rest

/-- Matcher for `[^\s@]*@[^\s@]+\.[^\s@]+$` entered after at least one
character of the first group has been consumed. -/
def emailAfterOne : List Char → Bool
  | [] => false
  | c :: rest =>
    (c == '@' && domainMatch rest) || (emailAtomChar c && emailAfterOne rest)

/-- Model of `/^[^\s@]+@[^\s@]+\.[^\s@]+$/.test` from `validateForm` (line 257). -/
def emailTest : List Char → Bool
  | [] => false
  | c :: rest => emailAtomChar c && emailAfterOne rest

/-- Model of `/^[0-9]{10,}$/.test` from `validateForm` (line 263): ten or more
digits, nothing else, no upper bound. -/
def contactMatch (l : List Char) : Bool :=
  decide (10 ≤ l.length) && l.all Char.isDigit

/-- The record type handled by the whole program: `{ name, id, email,
contact }`, all strings. -/
structure StudentRecord where
  name : List Char
  id : List Char
  email : List Char
  contact : List Char
deriving DecidableEq, Repr

/-- Return type of `validateForm`: `{ ok:true, value }` or
`{ ok:false, error }`. -/
inductive VResult where
  | ok (value : StudentRecord)
  | fail (error : List Char)
deriving DecidableEq, Repr

def msgRequired : List Char := "Please fill in all required fields.".data

def msgName : List Char := "Name must contain letters and spaces only.".data

def msgId : List Char := "Student ID must contain numbers only.".data

def msgEmail : List Char := "Please enter a valid email address.".data

def msgContact : List Char := "Contact number must be at least 10 digits (numbers only).".data

def msgDuplicate : List Char := "This exact record already exists.".data

def msgAdded : List Char := "Student added.".data

def msgUpdated : List Char := "Student updated.".data

def msgDeleted : List Char := "Record deleted.".data

def msgEditing : List Char := "Editing record. Make changes and press Update.".data

/-- Model of `validateForm` (script.js lines 235-269): trim the four raw input
values, then run the five ordered checks, short-circuiting on the first
failure; on success return the trimmed fields unchanged. -/
def validateForm (rawName rawId rawEmail rawContact : List Char) : VResult :=
  let name := trim rawName
  let id := trim rawId
  let email := trim rawEmail
  let contact := trim rawContact
  if name.isEmpty || id.isEmpty || email.isEmpty || contact.isEmpty then
    .fail msgRequired
  else if !plusMatch nameCharB name then
    .fail msgName
  else if !plusMatch Char.isDigit id then
    .fail msgId
  else if !emailTest email then
    .fail msgEmail
  else if !contactMatch contact then
    .fail msgContact
  else
    .ok ⟨name, id, email, contact⟩

/-- The four-field comparison of the duplicate check in the submit handler
(lines 295-300). -/
def sameRecord (s v : StudentRecord) : Bool :=
  s.name == v.name && s.id == v.id && s.email == v.email && s.contact == v.contact

/-- Abstract JS/JSON values, the possible results of `JSON.parse` and the
arguments of `JSON.stringify`.  `localStorage` and `JSON` are browser
primitives, not repository code, so serialization is modelled at this
abstract value level: a stored text is represented by what `JSON.parse`
does to it (`ParseResult`). -/
inductive JsValue where
  | null
  | bool (b : Bool)
  | num (n : Int)
  | str (s : List Char)
  | arr (elems : List JsValue)
  | obj (fields : List (List Char × JsValue))

/-- What `JSON.parse` does to a stored text: either throw (`ill`) or
produce a value. -/
inductive ParseResult where
  | ill
  | val (v : JsValue)

/-- The persisted slot keyed by `STORAGE_KEY`: either nothing stored (or
the empty string, which is falsy like a missing value and also unparsable),
or some stored text represented by its parse result. -/
inductive Slot where
  | empty
  | text (p : ParseResult)

/-- Model of `JSON.stringify` of one student object: an object with exactly the four
string fields in property order name, id, email, contact. -/
def encodeRecord (r : StudentRecord) : JsValue :=
  .obj [("name".data, .str r.name), ("id".data, .str r.id),
        ("email".data, .str r.email), ("contact".data, .str r.contact)]

/-- Model of `JSON.stringify(students)`: the serialized array of student objects. -/
def encodeStudents (students : List StudentRecord) : JsValue :=
  .arr (students.map encodeRecord)

/-- The strict read-back view of a parsed student object: the four string
fields in the order and with the names that `saveStudents` writes. -/
def decodeRecord : JsValue → Option StudentRecord
  | .obj [(k1, .str n), (k2, .str i), (k3, .str e), (k4, .str c)] =>
    if k1 = "name".data ∧ k2 = "id".data ∧ k3 = "email".data ∧ k4 = "contact".data then
      some ⟨n, i, e, c⟩
    else
      none
  | _ => none

/-- The read-back view of a list of parsed values as student records:
all elements must read back, in order. -/
def decodeRecords : List JsValue → Option (List StudentRecord)
  | [] => some []
  | v :: rest =>
    match decodeRecord v, decodeRecords rest with
    | some r, some t => some (r :: t)
    | _, _ => none

/-- The read-back view of a parsed value as a student-record sequence. -/
def decodeStudents : JsValue → Option (List StudentRecord)
  | .arr elems => decodeRecords elems
  | _ => none

/-- Model of `loadStudents` (lines 95-104): a missing slot gives `[]` (the falsy
`raw` branch), a text that `JSON.parse` throws on gives `[]` (the catch
branch), and any successfully parsed value is returned as-is, with no
validation of its shape or contents. -/
def loadStudents : Slot → JsValue
  | .empty => .arr []
  | .text .ill => .arr []
  | .text (.val v) => v

/-- Model of `saveStudents` (lines 106-108): overwrite the slot with the
serialization of the full in-memory array. -/
def saveStudents (students : List StudentRecord) : Slot :=
  .text (.val (encodeStudents students))

/-- Model of `str.replaceAll(pat, rep)` for a one-character pattern. -/
def replaceAllChar (pat : Char) (rep : List Char) (l : List Char) : List Char :=
  l.flatMap fun ch => if ch = pat then rep else [ch]

/-- Model of `escapeHtml` (lines 340-347): the five sequential `replaceAll` calls,
ampersand first, innermost first; the replacement texts are the entities
written out as character lists. -/
def escapeHtml (str : List Char) : List Char :=
  replaceAllChar '\'' ['&', '#', '0', '3', '9', ';']
    (replaceAllChar '"' ['&', 'q', 'u', 'o', 't', ';']
      (replaceAllChar '>' ['&', 'g', 't', ';']
        (replaceAllChar '<' ['&', 'l', 't', ';']
          (replaceAllChar '&' ['&', 'a', 'm', 'p', ';'] str))))

/-- The per-character image of the five sequential `replaceAll` calls;
`escapeHtml` is proved equal to its pointwise extension. -/
def escapeChar (ch : Char) : List Char :=
  if ch = '&' then ['&', 'a', 'm', 'p', ';']
  else if ch = '<' then ['&', 'l', 't', ';']
  else if ch = '>' then ['&', 'g', 't', ';']
  else if ch = '"' then ['&', 'q', 'u', 'o', 't', ';']
  else if ch = '\'' then ['&', '#', '0', '3', '9', ';']
  else [ch]

/-- The five entity texts that `escapeChar` can emit. -/
def entityList : List (List Char) :=
  [['&', 'a', 'm', 'p', ';'], ['&', 'l', 't', ';'], ['&', 'g', 't', ';'],
    ['&', 'q', 'u', 'o', 't', ';'], ['&', '#', '0', '3', '9', ';']]

/-- One rendered table row (lines 123-142): 1-based position label, the
four escaped field texts, and the two `data-index` action identifiers. -/
structure RenderedRow where
  pos : Nat
  nameText : List Char
  idText : List Char
  emailText : List Char
  contactText : List Char
  editIndexAttr : Nat
  deleteIndexAttr : Nat
deriving DecidableEq, Repr

/-- Model of `renderTable` (lines 115-148): one row per record, in store order, each
field value passed through `escapeHtml`, each action button carrying the
record's current index. -/
def renderTable (students : List StudentRecord) : List RenderedRow :=
  students.mapIdx fun idx s =>
    ⟨idx + 1, escapeHtml s.name, escapeHtml s.id, escapeHtml s.email,
      escapeHtml s.contact, idx, idx⟩

/-- The four text inputs of the form. -/
structure Form where
  nameV : List Char
  idV : List Char
  emailV : List Char
  contactV : List Char
deriving DecidableEq, Repr

/-- Model of `form.reset()`: all inputs cleared. -/
def emptyForm : Form := ⟨[], [], [], []⟩

/-- The whole mutable state of the page: the in-memory `students` array,
the `editIndex` marker (`null` when adding), the persisted slot, and the
form inputs. -/
structure Sys where
  students : List StudentRecord
  editIndex : Option Nat
  slot : Slot
  form : Form

/-- The four input fields, for input events. -/
inductive InputField where
  | name
  | id
  | email
  | contact

/-- The user events the page handles: typing into an input (with the live
sanitizers of lines 77-88), submitting the form, clicking a row's Edit or
Delete button (the Delete carries the user's answer to the `confirm`
dialog), and resetting the form. -/
inductive Event where
  | input (f : InputField) (text : List Char)
  | submit
  | editClick (i : Nat)
  | deleteClick (i : Nat) (confirmed : Bool)
  | resetClick

/-- The live input sanitizers (lines 77-88): the name input strips
everything but letters and spaces, the id and contact inputs strip
non-digits, the email input is left as typed. -/
def applyInput (fm : Form) : InputField → List Char → Form
  | .name, t => { fm with nameV := t.filter nameCharB }
  | .id, t => { fm with idV := t.filter Char.isDigit }
  | .email, t => { fm with emailV := t }
  | .contact, t => { fm with contactV := t.filter Char.isDigit }

/-- Model of `startEdit` (lines 167-186): guarded by the existence check on
`students[index]`; on success records the index in `editIndex`, fills the
form from the selected record and announces. -/
def startEdit (st : Sys) (index : Nat) : Sys × Option (List Char) :=
  match st.students[index]? with
  | none => (st, none)
  | some s =>
    ({ st with editIndex := some index, form := ⟨s.name, s.id, s.email, s.contact⟩ },
      some msgEditing)

/-- Model of `deleteRow` (lines 188-207): guarded by the existence check on
`students[index]`; then the `confirm` gate; on confirmation splice the
record out, persist, redraw and reset the form (which also clears
`editIndex`). -/
def deleteRow (st : Sys) (index : Nat) (confirmed : Bool) : Sys × Option (List Char) :=
  match st.students[index]? with
  | none => (st, none)
  | some _ =>
    if confirmed then
      let students' := st.students.eraseIdx index
      (⟨students', none, saveStudents students', emptyForm⟩, some msgDeleted)
    else
      (st, none)

/-- The submit handler (lines 287-319): validate the current form values;
on success compute the exact-duplicate check over the whole array; reject a
duplicate only when `editIndex` is null; otherwise push (add mode) or
assign at `editIndex` (edit mode), persist, redraw and reset the form.
The in-range behaviour of the JS element assignment `students[editIndex] =
v.value` is `List.set`; its behaviour at an arbitrary index is modelled
separately by `jsArrayWrite`, and `editIndex_always_in_range` shows only
in-range indices ever reach this assignment. -/
def submitStep (st : Sys) : Sys × Option (List Char) :=
  match validateForm st.form.nameV st.form.idV st.form.emailV st.form.contactV with
  | .fail msg => (st, some msg)
  | .ok v =>
    let dup := st.students.any fun s => sameRecord s v
    if dup && st.editIndex.isNone then
      (st, some msgDuplicate)
    else
      match st.editIndex with
      | none =>
        let students' := st.students ++ [v]
        (⟨students', none, saveStudents students', emptyForm⟩, some msgAdded)
      | some i =>
        let students' := st.students.set i v
        (⟨students', none, saveStudents students', emptyForm⟩, some msgUpdated)

/-- One user event processed to completion (the page is single-threaded and
synchronous), returning the new state and the announced message, if any.
The reset transition is modelled from the spec: the reset control's wiring
lives in `index.html`, which is not under `src/`; per §4.4 it clears the
form and returns to Adding mode. -/
def step (st : Sys) : Event → Sys × Option (List Char)
  | .input f t => ({ st with form := applyInput st.form f t }, none)
  | .submit => submitStep st
  | .editClick i => startEdit st i
  | .deleteClick i c => deleteRow st i c
  | .resetClick => ({ st with editIndex := none, form := emptyForm }, none)

/-- A whole session: fold the events over the state. -/
def run (st : Sys) (evs : List Event) : Sys :=
  evs.foldl (fun s e => (step s e).1) st

/-- Page initialization (lines 62-89): `students = loadStudents()` with
`editIndex` null and the form empty.  Defined only for slots whose parsed
content reads back as a record sequence; other slots leave the page outside
the record-sequence data model (see the C4 analysis). -/
def initSys (slot : Slot) : Option Sys :=
  (decodeStudents (loadStudents slot)).map fun l => ⟨l, none, slot, emptyForm⟩

/-- JS semantics of the element assignment `a[i] = v` on an array: in
range it replaces the element; past the end it extends the array, filling
the skipped positions with holes (read back as `undefined`, serialized as
`null`) and never throwing. -/
def jsArrayWrite (l : List (Option StudentRecord)) (i : Nat) (v : StudentRecord) :
    List (Option StudentRecord) :=
  if i < l.length then
    l.set i (some v)
  else
    l ++ List.replicate (i - l.length) none ++ [some v]

/-- Declarative reading of the name constraint: one or more characters,
each a letter or a space, nothing else. -/
def NameShape (l : List Char) : Prop :=
  l ≠ [] ∧ ∀ ch ∈ l, ch.isAlpha = true ∨ ch = ' '

/-- Declarative reading of the id constraint: one or more digits, nothing
else. -/
def IdShape (l : List Char) : Prop :=
  l ≠ [] ∧ ∀ ch ∈ l, ch.isDigit = true

/-- Declarative reading of the email constraint as the code's regex states
it: one-or-more non-whitespace-non-at characters, the at sign, one-or-more
non-whitespace-non-at characters, a dot, one-or-more non-whitespace-non-at
characters. -/
def EmailShape (l : List Char) : Prop :=
  ∃ a b c, l = a ++ '@' :: (b ++ '.' :: c) ∧ a ≠ [] ∧ b ≠ [] ∧ c ≠ [] ∧
    (∀ ch ∈ a, emailAtomChar ch = true) ∧ (∀ ch ∈ b, emailAtomChar ch = true) ∧
    (∀ ch ∈ c, emailAtomChar ch = true)

/-- The email shape exactly as the claim words it: the final group is only
required to consist of non-whitespace characters (the claim omits the
non-at requirement that the code's `[^\s@]+$` imposes). -/
def ClaimEmailShape (l : List Char) : Prop :=
  ∃ a b c, l = a ++ '@' :: (b ++ '.' :: c) ∧ a ≠ [] ∧ b ≠ [] ∧ c ≠ [] ∧
    (∀ ch ∈ a, emailAtomChar ch = true) ∧ (∀ ch ∈ b, emailAtomChar ch = true) ∧
    (∀ ch ∈ c, isJsSpace ch = false)

/-- Declarative reading of the contact constraint: ten or more digits,
nothing else, no upper bound. -/
def ContactShape (l : List Char) : Prop :=
  10 ≤ l.length ∧ ∀ ch ∈ l, ch.isDigit = true

/-- All four field constraints of the data model. -/
def recordValid (r : StudentRecord) : Prop :=
  NameShape r.name ∧ IdShape r.id ∧ EmailShape r.email ∧ ContactShape r.contact

instance (l : List Char) : Decidable (NameShape l) := by
  unfold NameShape
  infer_instance

instance (l : List Char) : Decidable (IdShape l) := by
  unfold IdShape
  infer_instance

instance (l : List Char) : Decidable (ContactShape l) := by
  unfold ContactShape
  infer_instance

/-- Claim C1 as stated: `validateForm` performs the five checks in order,
short-circuits on the first failure with that check's message, recognizes
each field by the claim's shape (with the claim's wording of the email
shape), and on success returns the four trimmed fields unchanged. -/
def claimC1Statement : Prop :=
  ∀ rn ri re rc : List Char,
    ((trim rn = [] ∨ trim ri = [] ∨ trim re = [] ∨ trim rc = []) →
      validateForm rn ri re rc = .fail msgRequired) ∧
    (trim rn ≠ [] → trim ri ≠ [] → trim re ≠ [] → trim rc ≠ [] →
      ¬ NameShape (trim rn) → validateForm rn ri re rc = .fail msgName) ∧
    (trim ri ≠ [] → trim re ≠ [] → trim rc ≠ [] → NameShape (trim rn) →
      ¬ IdShape (trim ri) → validateForm rn ri re rc = .fail msgId) ∧
    (trim re ≠ [] → trim rc ≠ [] → NameShape (trim rn) → IdShape (trim ri) →
      ¬ ClaimEmailShape (trim re) → validateForm rn ri re rc = .fail msgEmail) ∧
    (trim rc ≠ [] → NameShape (trim rn) → IdShape (trim ri) →
      ClaimEmailShape (trim re) → ¬ ContactShape (trim rc) →
      validateForm rn ri re rc = .fail msgContact) ∧
    (NameShape (trim rn) → IdShape (trim ri) → ClaimEmailShape (trim re) →
      ContactShape (trim rc) →
      validateForm rn ri re rc = .ok ⟨trim rn, trim ri, trim re, trim rc⟩)

/-- The invariant claimed by C10: whenever `editIndex` holds an index, that
index is inside the current `students` array. -/
def editIndexInv (st : Sys) : Prop :=
  ∀ i, st.editIndex = some i → i < st.students.length

/-- The invariant of claim C3: every displayed record (the `students`
array, which `renderTable` projects one-to-one) and every record in the
persisted serialization satisfies the four field constraints. -/
def sysRecordsValid (st : Sys) : Prop :=
  (∀ r ∈ st.students, recordValid r) ∧
  (∀ l, st.slot = Slot.text (.val (encodeStudents l)) → ∀ r ∈ l, recordValid r)

/-- Claim C3 as stated: for every initial slot the page can start from and
every event sequence, every displayed record satisfies the constraints. -/
def claimC3Statement : Prop :=
  ∀ slot st0 evs, initSys slot = some st0 →
    ∀ r ∈ (run st0 evs).students, recordValid r

/-- A slot whose stored text is a well-formed serialization of a record
sequence. -/
def WellFormedSlot (slot : Slot) : Prop :=
  ∃ l : List StudentRecord, slot = Slot.text (.val (encodeStudents l))

/-- Claim C4 as stated: on a missing slot or on content that is not a
well-formed serialization of a record sequence, load returns the empty
sequence. -/
def claimC4Statement : Prop :=
  ∀ slot, ¬ WellFormedSlot slot → loadStudents slot = encodeStudents []

/-- Claim C6 as stated: remove-at and replace-at on an out-of-range index
are both no-ops (indices are naturals here, since every index the program
handles originates from an array position; the claim's negative-index case
cannot arise). -/
def claimC6Statement : Prop :=
  (∀ (st : Sys) (i : Nat) (confirmed : Bool), st.students.length ≤ i →
    step st (.deleteClick i confirmed) = (st, none)) ∧
  (∀ (l : List (Option StudentRecord)) (i : Nat) (v : StudentRecord),
    l.length ≤ i → jsArrayWrite l i v = l)

/-- The list `e` is an initial segment of `l`. -/
def leadsWith (e l : List Char) : Prop :=
  ∃ t, e ++ t = l

/-- Every occurrence of an ampersand in `out` is the first character of one
of the five entity texts. -/
def EveryAmpEntity (out : List Char) : Prop :=
  ∀ pre suf, out = pre ++ '&' :: suf → ∃ e ∈ entityList, leadsWith e ('&' :: suf)

/-- Texts built from ampersand-free characters and whole entity texts; the
escaping function only produces such texts. -/
inductive AmpGood : List Char → Prop where
  | nil : AmpGood []
  | safe (c : Char) (l : List Char) (hc : c ≠ '&') (h : AmpGood l) : AmpGood (c :: l)
  | ent (e : List Char) (l : List Char) (he : e ∈ entityList) (h : AmpGood l) :
      AmpGood (e ++ l)

end SRS

namespace SRS

theorem plusMatch_iff (p : Char → Bool) (l : List Char) :
    plusMatch p l = true ↔ l ≠ [] ∧ ∀ ch ∈ l, p ch = true := by
  simp [plusMatch, List.isEmpty_iff]

theorem nameMatch_iff (l : List Char) : plusMatch nameCharB l = true ↔ NameShape l := by
  rw [plusMatch_iff, NameShape]
  simp [nameCharB]

theorem idMatch_iff (l : List Char) : plusMatch Char.isDigit l = true ↔ IdShape l := by
  rw [plusMatch_iff, IdShape]

theorem contactMatch_iff (l : List Char) : contactMatch l = true ↔ ContactShape l := by
  simp [contactMatch, ContactShape]

theorem domAfterOne_mp : ∀ l : List Char, domAfterOne l = true →
    ∃ b c, l = b ++ '.' :: c ∧ (∀ ch ∈ b, emailAtomChar ch = true) ∧ c ≠ [] ∧
      (∀ ch ∈ c, emailAtomChar ch = true)
  | [], h => by simp [domAfterOne] at h
  | x :: rest, h => by
    simp only [domAfterOne, Bool.or_eq_true, Bool.and_eq_true, beq_iff_eq] at h
    rcases h with ⟨hx, hp⟩ | ⟨hx, hd⟩
    · obtain ⟨hne, hall⟩ := (plusMatch_iff _ _).mp hp
      exact ⟨[], rest, by rw [hx]; rfl, by simp, hne, hall⟩
    · obtain ⟨b, c, hbc, hball, hcne, hcall⟩ := domAfterOne_mp rest hd
      refine ⟨x :: b, c, by rw [hbc]; rfl, ?_, hcne, hcall⟩
      intro ch hch
      rcases List.mem_cons.mp hch with rfl | hch
      · exact hx
      · exact hball ch hch

theorem domAfterOne_mpr : ∀ b c : List Char, (∀ ch ∈ b, emailAtomChar ch = true) →
    c ≠ [] → (∀ ch ∈ c, emailAtomChar ch = true) → domAfterOne (b ++ '.' :: c) = true
  | [], c, _, hcne, hcall => by
    have hp : plusMatch emailAtomChar c = true := (plusMatch_iff _ _).mpr ⟨hcne, hcall⟩
    simp [domAfterOne, hp]
  | x :: b', c, hb, hcne, hcall => by
    have hx : emailAtomChar x = true := hb x (by simp)
    have hrec := domAfterOne_mpr b' c (fun ch hch => hb ch (by simp [hch])) hcne hcall
    simp [domAfterOne, hx, hrec]

theorem domainMatch_shape (l : List Char) :
    domainMatch l = true ↔
      ∃ b c, l = b ++ '.' :: c ∧ b ≠ [] ∧ (∀ ch ∈ b, emailAtomChar ch = true) ∧
        c ≠ [] ∧ (∀ ch ∈ c, emailAtomChar ch = true) := by
  constructor
  · intro h
    cases l with
    | nil => simp [domainMatch] at h
    | cons x rest =>
      simp only [domainMatch, Bool.and_eq_true] at h
      obtain ⟨b, c, hbc, hball, hcne, hcall⟩ := domAfterOne_mp rest h.2
      refine ⟨x :: b, c, by rw [hbc]; rfl, by simp, ?_, hcne, hcall⟩
      intro ch hch
      rcases List.mem_cons.mp hch with rfl | hch
      · exact h.1
      · exact hball ch hch
  · rintro ⟨b, c, rfl, hbne, hb, hcne, hcall⟩
    cases b with
    | nil => exact absurd rfl hbne
    | cons x b' =>
      have hx := hb x (by simp)
      have hrec := domAfterOne_mpr b' c (fun ch hch => hb ch (by simp [hch])) hcne hcall
      simp [domainMatch, hx, hrec]

theorem emailAfterOne_mp : ∀ l : List Char, emailAfterOne l = true →
    ∃ a rest, l = a ++ '@' :: rest ∧ (∀ ch ∈ a, emailAtomChar ch = true) ∧
      domainMatch rest = true
  | [], h => by simp [emailAfterOne] at h
  | x :: rest, h => by
    simp only [emailAfterOne, Bool.or_eq_true, Bool.and_eq_true, beq_iff_eq] at h
    rcases h with ⟨hx, hd⟩ | ⟨hx, he⟩
    · exact ⟨[], rest, by rw [hx]; rfl, by simp, hd⟩
    · obtain ⟨a, r, har, hall, hd⟩ := emailAfterOne_mp rest he
      refine ⟨x :: a, r, by rw [har]; rfl, ?_, hd⟩
      intro ch hch
      rcases List.mem_cons.mp hch with rfl | hch
      · exact hx
      · exact hall ch hch

theorem emailAfterOne_mpr : ∀ a rest : List Char, (∀ ch ∈ a, emailAtomChar ch = true) →
    domainMatch rest = true → emailAfterOne (a ++ '@' :: rest) = true
  | [], rest, _, hd => by simp [emailAfterOne, hd]
  | x :: a', rest, ha, hd => by
    have hx : emailAtomChar x = true := ha x (by simp)
    have hrec := emailAfterOne_mpr a' rest (fun ch hch => ha ch (by simp [hch])) hd
    simp [emailAfterOne, hx, hrec]

theorem emailTest_shape (l : List Char) : emailTest l = true ↔ EmailShape l := by
  constructor
  · intro h
    cases l with
    | nil => simp [emailTest] at h
    | cons x rest =>
      simp only [emailTest, Bool.and_eq_true] at h
      obtain ⟨a, r, har, hall, hd⟩ := emailAfterOne_mp rest h.2
      obtain ⟨b, c, hbc, hbne, hball, hcne, hcall⟩ := (domainMatch_shape r).mp hd
      refine ⟨x :: a, b, c, ?_, by simp, hbne, hcne, ?_, hball, hcall⟩
      · rw [List.cons_append, har, hbc]
      · intro ch hch
        rcases List.mem_cons.mp hch with rfl | hch
        · exact h.1
        · exact hall ch hch
  · rintro ⟨a, b, c, rfl, hane, hbne, hcne, haall, hball, hcall⟩
    cases a with
    | nil => exact absurd rfl hane
    | cons x a' =>
      have hx := haall x (by simp)
      have hd : domainMatch (b ++ '.' :: c) = true :=
        (domainMatch_shape _).mpr ⟨b, c, rfl, hbne, hball, hcne, hcall⟩
      have hrec := emailAfterOne_mpr a' (b ++ '.' :: c)
        (fun ch hch => haall ch (by simp [hch])) hd
      simp [emailTest, hx, hrec]

theorem EmailShape_ne_nil {l : List Char} (h : EmailShape l) : l ≠ [] := by
  obtain ⟨a, b, c, rfl, -⟩ := h
  simp

theorem ContactShape_ne_nil {l : List Char} (h : ContactShape l) : l ≠ [] := by
  intro heq
  rw [heq] at h
  simp [ContactShape] at h

theorem validateForm_ok_valid (rn ri re rc : List Char) (v : StudentRecord)
    (h : validateForm rn ri re rc = .ok v) : recordValid v := by
  simp only [validateForm] at h
  split at h
  · exact VResult.noConfusion h
  split at h
  · exact VResult.noConfusion h
  case isFalse h1 h2 =>
    split at h
    · exact VResult.noConfusion h
    case isFalse h3 =>
      split at h
      · exact VResult.noConfusion h
      case isFalse h4 =>
        split at h
        · exact VResult.noConfusion h
        case isFalse h5 =>
          simp only [Bool.not_eq_true, Bool.not_eq_false'] at h2 h3 h4 h5
          injection h with hv
          rw [← hv]
          exact ⟨(nameMatch_iff _).mp h2, (idMatch_iff _).mp h3,
            (emailTest_shape _).mp h4, (contactMatch_iff _).mp h5⟩

/-- Claim C1 amended: `validateForm` performs the five checks in the fixed
order, short-circuiting on the first failure with that check's message, and
on success returns exactly the four input fields trimmed and otherwise
unchanged; the email shape is as the code's regex states it — the final
group consists of non-whitespace-non-at characters (the claim's wording
required only non-whitespace there). -/
theorem validateForm_characterization (rn ri re rc : List Char) :
    ((trim rn = [] ∨ trim ri = [] ∨ trim re = [] ∨ trim rc = []) →
      validateForm rn ri re rc = .fail msgRequired) ∧
    (trim rn ≠ [] → trim ri ≠ [] → trim re ≠ [] → trim rc ≠ [] →
      ¬ NameShape (trim rn) → validateForm rn ri re rc = .fail msgName) ∧
    (trim ri ≠ [] → trim re ≠ [] → trim rc ≠ [] → NameShape (trim rn) →
      ¬ IdShape (trim ri) → validateForm rn ri re rc = .fail msgId) ∧
    (trim re ≠ [] → trim rc ≠ [] → NameShape (trim rn) → IdShape (trim ri) →
      ¬ EmailShape (trim re) → validateForm rn ri re rc = .fail msgEmail) ∧
    (trim rc ≠ [] → NameShape (trim rn) → IdShape (trim ri) →
      EmailShape (trim re) → ¬ ContactShape (trim rc) →
      validateForm rn ri re rc = .fail msgContact) ∧
    (NameShape (trim rn) → IdShape (trim ri) → EmailShape (trim re) →
      ContactShape (trim rc) →
      validateForm rn ri re rc = .ok ⟨trim rn, trim ri, trim re, trim rc⟩) := by
  refine ⟨?_, ?_, ?_, ?_, ?_, ?_⟩
  · intro h
    rcases h with h | h | h | h <;> simp [validateForm, h]
  · intro hn hi he hc hname
    have p1 : plusMatch nameCharB (trim rn) = false :=
      Bool.eq_false_iff.mpr fun hp => hname ((nameMatch_iff _).mp hp)
    simp [validateForm, hn, hi, he, hc, p1]
  · intro hi he hc hname hid
    have p1 : plusMatch nameCharB (trim rn) = true := (nameMatch_iff _).mpr hname
    have p2 : plusMatch Char.isDigit (trim ri) = false :=
      Bool.eq_false_iff.mpr fun hp => hid ((idMatch_iff _).mp hp)
    simp [validateForm, hname.1, hi, he, hc, p1, p2]
  · intro he hc hname hid hemail
    have p1 : plusMatch nameCharB (trim rn) = true := (nameMatch_iff _).mpr hname
    have p2 : plusMatch Char.isDigit (trim ri) = true := (idMatch_iff _).mpr hid
    have p3 : emailTest (trim re) = false :=
      Bool.eq_false_iff.mpr fun hp => hemail ((emailTest_shape _).mp hp)
    simp [validateForm, hname.1, hid.1, he, hc, p1, p2, p3]
  · intro hc hname hid hemail hcontact
    have p1 : plusMatch nameCharB (trim rn) = true := (nameMatch_iff _).mpr hname
    have p2 : plusMatch Char.isDigit (trim ri) = true := (idMatch_iff _).mpr hid
    have p3 : emailTest (trim re) = true := (emailTest_shape _).mpr hemail
    have p4 : contactMatch (trim rc) = false :=
      Bool.eq_false_iff.mpr fun hp => hcontact ((contactMatch_iff _).mp hp)
    simp [validateForm, hname.1, hid.1, EmailShape_ne_nil hemail, hc, p1, p2, p3, p4]
  · intro hname hid hemail hcontact
    have p1 : plusMatch nameCharB (trim rn) = true := (nameMatch_iff _).mpr hname
    have p2 : plusMatch Char.isDigit (trim ri) = true := (idMatch_iff _).mpr hid
    have p3 : emailTest (trim re) = true := (emailTest_shape _).mpr hemail
    have p4 : contactMatch (trim rc) = true := (contactMatch_iff _).mpr hcontact
    simp [validateForm, hname.1, hid.1, EmailShape_ne_nil hemail,
      ContactShape_ne_nil hcontact, p1, p2, p3, p4]

theorem validateForm_characterization_witness :
    validateForm "Ann Lee".data "123".data "a@b.com".data "1234567890".data =
      .ok ⟨trim "Ann Lee".data, trim "123".data, trim "a@b.com".data,
        trim "1234567890".data⟩ :=
  (validateForm_characterization "Ann Lee".data "123".data "a@b.com".data
      "1234567890".data).2.2.2.2.2
    (by decide) (by decide)
    ⟨"a".data, "b".data, "com".data, by decide, by decide, by decide, by decide,
      by decide, by decide, by decide⟩
    (by decide)

theorem decodeRecord_encodeRecord (r : StudentRecord) :
    decodeRecord (encodeRecord r) = some r := by
  simp [decodeRecord, encodeRecord]

theorem decodeStudents_encodeStudents (l : List StudentRecord) :
    decodeStudents (encodeStudents l) = some l := by
  induction l with
  | nil => rfl
  | cons r t ih =>
    have iht : decodeRecords (t.map encodeRecord) = some t := by
      simpa [decodeStudents, encodeStudents] using ih
    simp [decodeStudents, encodeStudents, decodeRecords, decodeRecord_encodeRecord, iht]

theorem encodeStudents_inj {l1 l2 : List StudentRecord}
    (h : encodeStudents l1 = encodeStudents l2) : l1 = l2 := by
  have h1 := decodeStudents_encodeStudents l1
  rw [h, decodeStudents_encodeStudents l2] at h1
  exact (Option.some.inj h1).symm

/-- Claim C5: saving any record sequence and then doing a fresh load gives
back the very serialization that was written, and reading it back as
records yields a sequence equal (element-wise, all four fields, same
order) to the one passed to save. -/
theorem save_load_roundtrip (l : List StudentRecord) :
    loadStudents (saveStudents l) = encodeStudents l ∧
    decodeStudents (loadStudents (saveStudents l)) = some l :=
  ⟨rfl, decodeStudents_encodeStudents l⟩

/-- Counterexample to claim C4: the stored text `"5"` parses successfully
to the number 5, which is not a well-formed serialization of a record
sequence, yet `loadStudents` returns it as-is instead of the empty
sequence (the raw parse result is returned without validation). -/
theorem load_malformed_refuted : ¬ claimC4Statement := by
  intro h
  have hm : ¬ WellFormedSlot (Slot.text (.val (.num 5))) := by
    rintro ⟨l, hl⟩
    injection hl with hp
    injection hp with hv
    rw [encodeStudents] at hv
    exact JsValue.noConfusion hv
  have hload := h _ hm
  rw [encodeStudents] at hload
  exact JsValue.noConfusion hload

/-- Claim C4 amended: load returns the empty sequence exactly on a missing
slot, on content whose parse throws, or on the serialization of the empty
sequence itself; any other parsed value — well-formed record sequence or
not — is returned as-is, unvalidated, and load never fails. -/
theorem load_total_behavior :
    (∀ v, loadStudents (Slot.text (.val v)) = v) ∧
    ∀ slot, loadStudents slot = encodeStudents [] ↔
      (slot = Slot.empty ∨ slot = Slot.text .ill ∨
        slot = Slot.text (.val (encodeStudents []))) := by
  refine ⟨fun v => rfl, fun slot => ?_⟩
  cases slot with
  | empty => simp [loadStudents, encodeStudents]
  | text p =>
    cases p with
    | ill => simp [loadStudents, encodeStudents]
    | val v => simp [loadStudents]

/-- Counterexample to claim C3: a pre-existing slot holding a well-formed
serialization of a record that violates all four constraints loads and is
displayed as-is — nothing on the load path runs the Validator. -/
theorem load_validation_refuted : ¬ claimC3Statement := by
  intro h
  have h0 : initSys
      (Slot.text (.val (encodeStudents [⟨"123".data, "abc".data, "noat".data, "555".data⟩]))) =
      some ⟨[⟨"123".data, "abc".data, "noat".data, "555".data⟩], none,
        Slot.text (.val (encodeStudents [⟨"123".data, "abc".data, "noat".data, "555".data⟩])),
        emptyForm⟩ := by
    simp [initSys, loadStudents, decodeStudents_encodeStudents]
  have hval := h _ _ [] h0 ⟨"123".data, "abc".data, "noat".data, "555".data⟩ (by simp [run])
  exact (by decide : ¬ NameShape "123".data) hval.1

theorem step_preserves_recordsValid (st : Sys) (e : Event) (h : sysRecordsValid st) :
    sysRecordsValid (step st e).1 := by
  obtain ⟨hs, hslot⟩ := h
  cases e with
  | input f t => exact ⟨hs, hslot⟩
  | resetClick => exact ⟨hs, hslot⟩
  | editClick i =>
    simp only [step, startEdit]
    split
    · exact ⟨hs, hslot⟩
    · exact ⟨hs, hslot⟩
  | deleteClick i c =>
    simp only [step, deleteRow]
    split
    · exact ⟨hs, hslot⟩
    · split
      · refine ⟨?_, ?_⟩
        · intro r hr
          exact hs r (List.mem_of_mem_eraseIdx hr)
        · intro l hl
          simp only [saveStudents] at hl
          injection hl with hp
          injection hp with hv
          intro r hr
          rw [← encodeStudents_inj hv] at hr
          exact hs r (List.mem_of_mem_eraseIdx hr)
      · exact ⟨hs, hslot⟩
  | submit =>
    simp only [step, submitStep]
    cases hv : validateForm st.form.nameV st.form.idV st.form.emailV st.form.contactV with
    | fail msg => exact ⟨hs, hslot⟩
    | ok v =>
      have hvv : recordValid v := validateForm_ok_valid _ _ _ _ v hv
      cases hdup : ((st.students.any fun s => sameRecord s v) && st.editIndex.isNone) with
      | true =>
        simp only [hdup, if_true]
        exact ⟨hs, hslot⟩
      | false =>
        simp only [hdup, Bool.false_eq_true, if_false]
        cases hei : st.editIndex with
        | none =>
          refine ⟨?_, ?_⟩
          · intro r hr
            rcases List.mem_append.mp hr with hr | hr
            · exact hs r hr
            · rw [List.mem_singleton.mp hr]
              exact hvv
          · intro l hl
            simp only [saveStudents] at hl
            injection hl with hp
            injection hp with hvl
            intro r hr
            rw [← encodeStudents_inj hvl] at hr
            rcases List.mem_append.mp hr with hr | hr
            · exact hs r hr
            · rw [List.mem_singleton.mp hr]
              exact hvv
        | some i =>
          refine ⟨?_, ?_⟩
          · intro r hr
            rcases List.mem_or_eq_of_mem_set hr with hr | rfl
            · exact hs r hr
            · exact hvv
          · intro l hl
            simp only [saveStudents] at hl
            injection hl with hp
            injection hp with hvl
            intro r hr
            rw [← encodeStudents_inj hvl] at hr
            rcases List.mem_or_eq_of_mem_set hr with hr | rfl
            · exact hs r hr
            · exact hvv

theorem run_preserves_recordsValid (st : Sys) (evs : List Event)
    (h : sysRecordsValid st) : sysRecordsValid (run st evs) := by
  induction evs generalizing st with
  | nil => exact h
  | cons e t ih => exact ih _ (step_preserves_recordsValid st e h)

/-- Claim C3 amended: provided the records read from the pre-existing slot
at startup already satisfy the four field constraints (the load path does
not re-validate them), every record displayed or persisted during any
subsequent sequence of operations satisfies all four constraints — the
Validator is the only path that constructs a new record. -/
theorem validated_construction_invariant (slot : Slot) (st0 : Sys) (evs : List Event)
    (h0 : initSys slot = some st0) (hinit : ∀ r ∈ st0.students, recordValid r) :
    sysRecordsValid (run st0 evs) := by
  obtain ⟨l0, hd, rfl⟩ : ∃ l0, decodeStudents (loadStudents slot) = some l0 ∧
      st0 = ⟨l0, none, slot, emptyForm⟩ := by
    simp only [initSys] at h0
    cases hdec : decodeStudents (loadStudents slot) with
    | none =>
      rw [hdec] at h0
      exact Option.noConfusion h0
    | some l0 =>
      rw [hdec] at h0
      injection h0 with h0
      exact ⟨l0, rfl, h0.symm⟩
  refine run_preserves_recordsValid _ evs ⟨hinit, ?_⟩
  intro l hl r hr
  have hl' : slot = Slot.text (.val (encodeStudents l)) := hl
  rw [hl'] at hd
  simp only [loadStudents] at hd
  rw [decodeStudents_encodeStudents l] at hd
  exact hinit r (Option.some.inj hd ▸ hr)

theorem validated_construction_invariant_witness :
    sysRecordsValid (run ⟨[], none, Slot.empty, emptyForm⟩
      [Event.input .name "Ann Lee".data, Event.input .id "123".data,
        Event.input .email "a@b.com".data, Event.input .contact "1234567890".data,
        Event.submit]) :=
  validated_construction_invariant Slot.empty ⟨[], none, Slot.empty, emptyForm⟩ _
    (by simp [initSys, loadStudents, decodeStudents, decodeRecords])
    (by intro r hr; simp at hr)

theorem sameRecord_iff_eq (s v : StudentRecord) : sameRecord s v = true ↔ s = v := by
  cases s
  cases v
  simp [sameRecord, StudentRecord.mk.injEq, and_assoc]

theorem any_dup_iff (students : List StudentRecord) (v : StudentRecord) :
    (students.any fun s => sameRecord s v) = true ↔ ∃ s ∈ students, s = v := by
  rw [List.any_eq_true]
  constructor
  · rintro ⟨s, hmem, hsame⟩
    exact ⟨s, hmem, (sameRecord_iff_eq s v).mp hsame⟩
  · rintro ⟨s, hmem, heq⟩
    exact ⟨s, hmem, (sameRecord_iff_eq s v).mpr heq⟩

theorem step_preserves_editIndexInv (st : Sys) (e : Event) (h : editIndexInv st) :
    editIndexInv (step st e).1 := by
  cases e with
  | input f t => exact h
  | resetClick =>
    intro j hj
    exact Option.noConfusion hj
  | editClick i =>
    simp only [step, startEdit]
    cases hgi : st.students[i]? with
    | none => exact h
    | some s =>
      intro j hj
      rw [← Option.some.inj hj]
      exact (List.getElem?_eq_some_iff.mp hgi).1
  | deleteClick i c =>
    simp only [step, deleteRow]
    cases st.students[i]? with
    | none => exact h
    | some s =>
      cases c with
      | false => exact h
      | true =>
        intro j hj
        rw [if_pos rfl] at hj
        exact Option.noConfusion hj
  | submit =>
    simp only [step, submitStep]
    cases validateForm st.form.nameV st.form.idV st.form.emailV st.form.contactV with
    | fail msg => exact h
    | ok v =>
      cases hdup : ((st.students.any fun s => sameRecord s v) && st.editIndex.isNone) with
      | true =>
        simp only [hdup, if_true]
        exact h
      | false =>
        simp only [hdup, Bool.false_eq_true, if_false]
        cases st.editIndex with
        | none =>
          intro j hj
          exact Option.noConfusion hj
        | some i =>
          intro j hj
          exact Option.noConfusion hj

theorem run_preserves_editIndexInv (st : Sys) (evs : List Event)
    (h : editIndexInv st) : editIndexInv (run st evs) := by
  induction evs generalizing st with
  | nil => exact h
  | cons e t ih => exact ih _ (step_preserves_editIndexInv st e h)

/-- Claim C10: on every state the page can reach — any initial load, any
event sequence — `editIndex` is either null or a valid index into the
current `students` array, so the unguarded element assignment at
`editIndex` in the submit handler only ever targets an in-range position. -/
theorem editIndex_always_in_range (slot : Slot) (st0 : Sys) (evs : List Event)
    (h0 : initSys slot = some st0) : editIndexInv (run st0 evs) := by
  have h1 : st0.editIndex = none := by
    simp only [initSys] at h0
    cases hdec : decodeStudents (loadStudents slot) with
    | none =>
      rw [hdec] at h0
      exact Option.noConfusion h0
    | some l0 =>
      rw [hdec] at h0
      injection h0 with h0
      rw [← h0]
  refine run_preserves_editIndexInv st0 evs ?_
  intro j hj
  rw [h1] at hj
  exact Option.noConfusion hj

theorem editIndex_always_in_range_witness :
    editIndexInv (run ⟨[], none, Slot.empty, emptyForm⟩
      [Event.input .name "Ann Lee".data, Event.input .id "123".data,
        Event.input .email "a@b.com".data, Event.input .contact "1234567890".data,
        Event.submit, Event.editClick 0]) :=
  editIndex_always_in_range Slot.empty ⟨[], none, Slot.empty, emptyForm⟩ _
    (by simp [initSys, loadStudents, decodeStudents, decodeRecords])

/-- Claim C2: for a validated candidate, a submission in Adding mode
(`editIndex` null) is rejected with the duplicate message and leaves the
whole state untouched exactly when some stored record equals the candidate
on all four fields; in Editing mode the duplicate check is skipped, and the
submission replaces position `i` even when the candidate duplicates another
stored record. -/
theorem submit_duplicate_policy (st : Sys) (v : StudentRecord)
    (hv : validateForm st.form.nameV st.form.idV st.form.emailV st.form.contactV = .ok v) :
    (st.editIndex = none →
      (((∃ s ∈ st.students, s = v) → step st .submit = (st, some msgDuplicate)) ∧
       ((¬ ∃ s ∈ st.students, s = v) →
         step st .submit =
           (⟨st.students ++ [v], none, saveStudents (st.students ++ [v]), emptyForm⟩,
             some msgAdded)))) ∧
    ∀ i, st.editIndex = some i →
      step st .submit =
        (⟨st.students.set i v, none, saveStudents (st.students.set i v), emptyForm⟩,
          some msgUpdated) := by
  constructor
  · intro hei
    constructor
    · intro hex
      have hany : (st.students.any fun s => sameRecord s v) = true := (any_dup_iff _ _).mpr hex
      simp [step, submitStep, hv, hany, hei]
    · intro hnex
      have hany : (st.students.any fun s => sameRecord s v) = false :=
        Bool.eq_false_iff.mpr fun hany => hnex ((any_dup_iff _ _).mp hany)
      simp [step, submitStep, hv, hany, hei]
  · intro i hei
    simp [step, submitStep, hv, hei]

theorem submit_duplicate_policy_witness :
    step ⟨[⟨"Old Name".data, "9".data, "o@o.de".data, "0123456789".data,⟩,
            ⟨"Bob".data, "12".data, "b@c.de".data, "9876543210".data⟩],
          some 0, Slot.empty,
          ⟨"Bob".data, "12".data, "b@c.de".data, "9876543210".data⟩⟩ .submit =
      (⟨[⟨"Bob".data, "12".data, "b@c.de".data, "9876543210".data⟩,
          ⟨"Bob".data, "12".data, "b@c.de".data, "9876543210".data⟩],
        none,
        saveStudents [⟨"Bob".data, "12".data, "b@c.de".data, "9876543210".data⟩,
          ⟨"Bob".data, "12".data, "b@c.de".data, "9876543210".data⟩],
        emptyForm⟩, some msgUpdated) := by
  have h := (submit_duplicate_policy
    ⟨[⟨"Old Name".data, "9".data, "o@o.de".data, "0123456789".data⟩,
        ⟨"Bob".data, "12".data, "b@c.de".data, "9876543210".data⟩],
      some 0, Slot.empty,
      ⟨"Bob".data, "12".data, "b@c.de".data, "9876543210".data⟩⟩
    ⟨"Bob".data, "12".data, "b@c.de".data, "9876543210".data⟩ (by decide)).2 0 rfl
  simpa using h

/-- Claim C7: a successful submission in Editing mode at an in-range
position replaces only that position — the length is unchanged, the target
position holds the validated record, and every other position is
untouched. -/
theorem edit_replaces_only_target (st : Sys) (k : Nat) (v : StudentRecord)
    (hk : st.editIndex = some k) (hlt : k < st.students.length)
    (hv : validateForm st.form.nameV st.form.idV st.form.emailV st.form.contactV = .ok v) :
    (step st .submit).1.students.length = st.students.length ∧
    (step st .submit).1.students[k]? = some v ∧
    ∀ j, j ≠ k → (step st .submit).1.students[j]? = st.students[j]? := by
  have hstep : (step st .submit).1.students = st.students.set k v := by
    simp [step, submitStep, hv, hk]
  rw [hstep]
  refine ⟨List.length_set .., ?_, ?_⟩
  · rw [List.getElem?_set_self']
    simp [List.getElem?_eq_getElem hlt]
  · intro j hj
    rw [List.getElem?_set_ne (by omega)]

theorem edit_replaces_only_target_witness :
    (step ⟨[⟨"Old Name".data, "9".data, "o@o.de".data, "0123456789".data⟩,
              ⟨"Keep Me".data, "7".data, "k@k.io".data, "1112223334".data⟩],
            some 0, Slot.empty,
            ⟨"Bob".data, "12".data, "b@c.de".data, "9876543210".data⟩⟩ .submit).1.students.length = 2 ∧
    (step ⟨[⟨"Old Name".data, "9".data, "o@o.de".data, "0123456789".data⟩,
              ⟨"Keep Me".data, "7".data, "k@k.io".data, "1112223334".data⟩],
            some 0, Slot.empty,
            ⟨"Bob".data, "12".data, "b@c.de".data, "9876543210".data⟩⟩ .submit).1.students[1]? =
      some ⟨"Keep Me".data, "7".data, "k@k.io".data, "1112223334".data⟩ := by
  have h := edit_replaces_only_target
    ⟨[⟨"Old Name".data, "9".data, "o@o.de".data, "0123456789".data⟩,
        ⟨"Keep Me".data, "7".data, "k@k.io".data, "1112223334".data⟩],
      some 0, Slot.empty,
      ⟨"Bob".data, "12".data, "b@c.de".data, "9876543210".data⟩⟩
    0 ⟨"Bob".data, "12".data, "b@c.de".data, "9876543210".data⟩
    rfl (by decide) (by decide)
  refine ⟨by rw [h.1]; decide, ?_⟩
  rw [h.2.2 1 (by decide)]
  decide

/-- Claim C8: every failure path — a validation rejection with any of the
five messages, a duplicate rejection in Adding mode, and a delete declined
at the confirmation gate — returns with the entire state unchanged: same
store, same persisted slot, same form contents; only a message is
announced. -/
theorem failure_paths_preserve_state (st : Sys) :
    (∀ msg, validateForm st.form.nameV st.form.idV st.form.emailV st.form.contactV = .fail msg →
      step st .submit = (st, some msg)) ∧
    (∀ v, validateForm st.form.nameV st.form.idV st.form.emailV st.form.contactV = .ok v →
      st.editIndex = none → (∃ s ∈ st.students, s = v) →
      step st .submit = (st, some msgDuplicate)) ∧
    ∀ i, step st (.deleteClick i false) = (st, none) := by
  refine ⟨?_, ?_, ?_⟩
  · intro msg hm
    simp [step, submitStep, hm]
  · intro v hv hei hex
    have hany : (st.students.any fun s => sameRecord s v) = true := (any_dup_iff _ _).mpr hex
    simp [step, submitStep, hv, hany, hei]
  · intro i
    simp only [step, deleteRow]
    cases st.students[i]? with
    | none => rfl
    | some s => simp

theorem failure_paths_preserve_state_witness :
    step ⟨[], none, Slot.empty, emptyForm⟩ .submit =
      (⟨[], none, Slot.empty, emptyForm⟩, some msgRequired) :=
  (failure_paths_preserve_state ⟨[], none, Slot.empty, emptyForm⟩).1 msgRequired (by decide)

theorem jsArrayWrite_map_set (l : List StudentRecord) (i : Nat) (v : StudentRecord)
    (h : i < l.length) : jsArrayWrite (l.map some) i v = (l.set i v).map some := by
  rw [jsArrayWrite, if_pos (by simpa using h), List.map_set]

/-- Counterexample to claim C6: the element assignment that the submit
handler performs at `editIndex` has no existence guard — at an
out-of-range index (here: index 0 on the empty array) it extends the
array instead of leaving it unchanged. -/
theorem replace_unguarded_refuted : ¬ claimC6Statement := by
  intro h
  have h2 := h.2 [] 0 ⟨"Bob".data, "12".data, "b@c.de".data, "9876543210".data⟩
    (by simp)
  rw [jsArrayWrite] at h2
  simp at h2

/-- Claim C6 amended: the remove operation (`deleteRow`) on an
out-of-range index is a guarded no-op that never throws; the replace
performed by the submit handler is an unguarded JS element assignment —
in range it replaces exactly the targeted position (agreeing with
`List.set`), while past the end it would extend the array (never
throwing); out-of-range indices never reach it on reachable states. -/
theorem remove_guard_and_replace_semantics :
    (∀ (st : Sys) (i : Nat) (confirmed : Bool), st.students.length ≤ i →
      step st (.deleteClick i confirmed) = (st, none)) ∧
    ∀ (l : List StudentRecord) (i : Nat) (v : StudentRecord), i < l.length →
      jsArrayWrite (l.map some) i v = (l.set i v).map some := by
  constructor
  · intro st i confirmed hi
    have hnone : st.students[i]? = none := List.getElem?_eq_none hi
    simp [step, deleteRow, hnone]
  · intro l i v h
    exact jsArrayWrite_map_set l i v h

theorem remove_guard_and_replace_semantics_witness :
    step ⟨[⟨"Bob".data, "12".data, "b@c.de".data, "9876543210".data⟩], none, Slot.empty,
        emptyForm⟩ (.deleteClick 5 true) =
      (⟨[⟨"Bob".data, "12".data, "b@c.de".data, "9876543210".data⟩], none, Slot.empty,
        emptyForm⟩, none) ∧
    jsArrayWrite [some ⟨"Bob".data, "12".data, "b@c.de".data, "9876543210".data⟩] 0
        ⟨"Ann Lee".data, "123".data, "a@b.com".data, "1234567890".data⟩ =
      [some ⟨"Ann Lee".data, "123".data, "a@b.com".data, "1234567890".data⟩] := by
  constructor
  · exact remove_guard_and_replace_semantics.1
      ⟨[⟨"Bob".data, "12".data, "b@c.de".data, "9876543210".data⟩], none, Slot.empty,
        emptyForm⟩ 5 true (by decide)
  · have h := remove_guard_and_replace_semantics.2
      [⟨"Bob".data, "12".data, "b@c.de".data, "9876543210".data⟩] 0
      ⟨"Ann Lee".data, "123".data, "a@b.com".data, "1234567890".data⟩ (by decide)
    simpa using h

/-- Counterexample to claim C1 as stated: the email `a@b.c@d` matches the
claim's email shape (final group `c@d` is all non-whitespace), and every
other check passes, so the claim demands acceptance — but the code's
`[^\s@]+$` final group rejects it with the email message. -/
theorem validateForm_claim_refuted : ¬ claimC1Statement := by
  intro h
  have h6 := (h "Ann".data "1".data "a@b.c@d".data "1234567890".data).2.2.2.2.2
  have hok := h6 (by decide) (by decide)
    ⟨"a".data, "b".data, "c@d".data, by decide, by decide, by decide, by decide,
      by decide, by decide, by decide⟩
    (by decide)
  have hne : validateForm "Ann".data "1".data "a@b.c@d".data "1234567890".data =
      .fail msgEmail := by decide
  rw [hne] at hok
  exact VResult.noConfusion hok

theorem replaceAllChar_cons (pat : Char) (rep : List Char) (c : Char) (t : List Char) :
    replaceAllChar pat rep (c :: t) =
      (if c = pat then rep else [c]) ++ replaceAllChar pat rep t := by
  simp [replaceAllChar]

theorem replaceAllChar_append (pat : Char) (rep : List Char) (x y : List Char) :
    replaceAllChar pat rep (x ++ y) =
      replaceAllChar pat rep x ++ replaceAllChar pat rep y := by
  simp [replaceAllChar]

theorem escapeHtml_nil : escapeHtml [] = [] := rfl

theorem escapeHtml_cons (c : Char) (t : List Char) :
    escapeHtml (c :: t) = escapeChar c ++ escapeHtml t := by
  unfold escapeHtml
  rw [replaceAllChar_cons '&' _ c t, replaceAllChar_append, replaceAllChar_append,
    replaceAllChar_append, replaceAllChar_append]
  congr 1
  by_cases h1 : c = '&'
  · subst h1
    decide
  by_cases h2 : c = '<'
  · subst h2
    decide
  by_cases h3 : c = '>'
  · subst h3
    decide
  by_cases h4 : c = '"'
  · subst h4
    decide
  by_cases h5 : c = '\''
  · subst h5
    decide
  simp [replaceAllChar, escapeChar, h1, h2, h3, h4, h5]

theorem ampGood_escapeHtml (s : List Char) : AmpGood (escapeHtml s) := by
  induction s with
  | nil =>
    rw [escapeHtml_nil]
    exact AmpGood.nil
  | cons c t ih =>
    rw [escapeHtml_cons]
    by_cases h1 : c = '&'
    · subst h1
      exact AmpGood.ent _ _ (by decide) ih
    by_cases h2 : c = '<'
    · subst h2
      exact AmpGood.ent _ _ (by decide) ih
    by_cases h3 : c = '>'
    · subst h3
      exact AmpGood.ent _ _ (by decide) ih
    by_cases h4 : c = '"'
    · subst h4
      exact AmpGood.ent _ _ (by decide) ih
    by_cases h5 : c = '\''
    · subst h5
      exact AmpGood.ent _ _ (by decide) ih
    have hc : escapeChar c = [c] := by simp [escapeChar, h1, h2, h3, h4, h5]
    rw [hc]
    exact AmpGood.safe c _ h1 ih

theorem entity_amp_head {e : List Char} (he : e ∈ entityList) :
    ∀ pre suf, e = pre ++ '&' :: suf → pre = [] := by
  fin_cases he <;>
    (intro pre suf h
     rcases pre with _ | ⟨a1, _ | ⟨a2, _ | ⟨a3, _ | ⟨a4, _ | ⟨a5, _ | ⟨a6, rest⟩⟩⟩⟩⟩⟩ <;>
       simp_all)

theorem ampGood_every {out : List Char} (h : AmpGood out) : EveryAmpEntity out := by
  induction h with
  | nil =>
    intro pre suf heq
    exact absurd heq (by simp)
  | safe c l hc hl ih =>
    intro pre suf heq
    cases pre with
    | nil =>
      injection heq with hch hrest
      exact absurd hch hc
    | cons p ps =>
      injection heq with hch hrest
      exact ih ps suf hrest
  | ent e l he hl ih =>
    intro pre suf heq
    rcases List.append_eq_append_iff.mp heq with ⟨a', ha1, ha2⟩ | ⟨c', hc1, hc2⟩
    · exact ih a' suf ha2
    · cases c' with
      | nil =>
        refine ih [] suf ?_
        rw [List.nil_append] at hc2 ⊢
        exact hc2.symm
      | cons x c'' =>
        injection hc2 with hx hsuf
        have hpre : pre = [] := entity_amp_head he pre c'' (by rw [hc1, hx])
        subst hpre
        rw [List.nil_append] at hc1
        refine ⟨e, he, l, ?_⟩
        rw [hc1, ← hx]
        simp [hsuf]

theorem escapeChar_no_markup (c ch : Char) (h : ch ∈ escapeChar c) :
    ch ≠ '<' ∧ ch ≠ '>' ∧ ch ≠ '"' ∧ ch ≠ '\'' := by
  unfold escapeChar at h
  split_ifs at h with h1 h2 h3 h4 h5
  · simp at h
    rcases h with rfl | rfl | rfl | rfl | rfl <;> decide
  · simp at h
    rcases h with rfl | rfl | rfl | rfl <;> decide
  · simp at h
    rcases h with rfl | rfl | rfl | rfl <;> decide
  · simp at h
    rcases h with rfl | rfl | rfl | rfl | rfl | rfl <;> decide
  · simp at h
    rcases h with rfl | rfl | rfl | rfl | rfl | rfl <;> decide
  · rw [List.mem_singleton.mp h]
    exact ⟨h2, h3, h4, h5⟩

theorem escapeHtml_no_markup (value : List Char) :
    ∀ ch ∈ escapeHtml value, ch ≠ '<' ∧ ch ≠ '>' ∧ ch ≠ '"' ∧ ch ≠ '\'' := by
  induction value with
  | nil =>
    intro ch hch
    rw [escapeHtml_nil] at hch
    exact absurd hch (List.not_mem_nil ch)
  | cons c t ih =>
    intro ch hch
    rw [escapeHtml_cons] at hch
    rcases List.mem_append.mp hch with hch | hch
    · exact escapeChar_no_markup c ch hch
    · exact ih ch hch

/-- Claim C9: the text `renderTable` interpolates for each field of a
rendered record is exactly the escaping function's image of the field
value, and that image contains none of the four active-markup characters
while every ampersand in it begins one of the five emitted entities — so a
field value is rendered as literal text and cannot inject markup. -/
theorem escapeHtml_renders_literal (students : List StudentRecord) (i : Nat)
    (s : StudentRecord) (hs : students[i]? = some s) :
    (renderTable students)[i]? =
      some ⟨i + 1, escapeHtml s.name, escapeHtml s.id, escapeHtml s.email,
        escapeHtml s.contact, i, i⟩ ∧
    ∀ value : List Char,
      (∀ ch ∈ escapeHtml value, ch ≠ '<' ∧ ch ≠ '>' ∧ ch ≠ '"' ∧ ch ≠ '\'') ∧
      EveryAmpEntity (escapeHtml value) := by
  refine ⟨?_, fun value =>
    ⟨escapeHtml_no_markup value, ampGood_every (ampGood_escapeHtml value)⟩⟩
  rw [renderTable, List.getElem?_mapIdx, hs]
  rfl

theorem escapeHtml_renders_literal_witness :
    (renderTable [⟨"Ann Lee".data, "123".data, "a@b.com".data, "1234567890".data⟩])[0]? =
      some ⟨1, escapeHtml "Ann Lee".data, escapeHtml "123".data,
        escapeHtml "a@b.com".data, escapeHtml "1234567890".data, 0, 0⟩ :=
  (escapeHtml_renders_literal
    [⟨"Ann Lee".data, "123".data, "a@b.com".data, "1234567890".data⟩] 0
    ⟨"Ann Lee".data, "123".data, "a@b.com".data, "1234567890".data⟩ rfl).1

end SRS
